import Mathlib

/-!
Verification development for the BenchMyDNS probing and aggregation engine
(`src/bench_my_dns.py`).

Shallow embedding notes:

* Python floats carrying millisecond latencies are modelled as rationals (`ℚ`);
  every arithmetic step of the source (`statistics.mean`, `min`, `max`, the
  reliability percentage) is exact rational arithmetic here.
* A DNS probe (`dns.query.udp` wrapped in `try`/`except`) is modelled as a
  function `ℕ → Option ℚ`: probe index `i` either yields `some t` (a response
  measured at `t` ms; the source appends `t` only when `t > 0`) or `none`
  (timeout, transport error, or malformed response — every exception path).
* The cooperative stop flag `_is_running` is set to `False` once (by `stop`)
  and only read afterwards.  The reads happen in a fixed sequential order, so a
  whole execution is determined by the number `k` of flag reads that still saw
  `True`: reads `0..k-1` return `True`, later reads return `False`.  Each
  iteration of a probe loop performs one read, as does the per-server loop of
  `BenchThread.run` and its final `if self._is_running` check.
* `int((idx / total) * 100)` is modelled bit-exactly as CPython computes it
  on IEEE-754 doubles: `pyProgress` performs the two round-to-nearest,
  ties-to-even roundings (the true division `idx / total`, then the
  multiplication by the exactly-representable double `100.0`) in integer
  arithmetic, followed by `int`'s truncation toward zero.
-/

/-- The `ServerResult` dataclass of `bench_my_dns.py` (lines 609-620), field
for field, with the same defaults. -/
structure ServerResult where
  name : String
  ip : String
  cached_avg : ℚ := 0
  uncached_avg : ℚ := 0
  overall_avg : ℚ := 0
  min_time : ℚ := 0
  max_time : ℚ := 0
  reliability : ℚ := 0
  total_queries : ℕ := 0
  successful : ℕ := 0
deriving DecidableEq, Repr

/-- `statistics.mean` on a nonempty list: sum divided by length. -/
def mean (l : List ℚ) : ℚ := l.sum / (l.length : ℚ)

/-- Python `min` over a nonempty list (the `[]` case is never reached by the
source, which guards with `if all_times`). -/
def listMin : List ℚ → ℚ
  | [] => 0
  | x :: xs => xs.foldl min x

/-- Python `max` over a nonempty list. -/
def listMax : List ℚ → ℚ
  | [] => 0
  | x :: xs => xs.foldl max x

/-- One probe loop of `BenchThread.test_single_server`: `n` iterations are
entered; iteration `i` appends its elapsed time when the query succeeded
(`probe i = some t`) and `t > 0` (the source's `if elapsed > 0`). -/
def collectTimes (probe : ℕ → Option ℚ) (n : ℕ) : List ℚ :=
  ((List.range n).filterMap probe).filter fun t => decide (0 < t)

/-- `BenchThread.test_single_server` (lines 713-772).  `query_count` is
`self.query_count`; `k` is the number of `_is_running` reads that still see
`True` when the campaign starts (`2 * query_count ≤ k` means the campaign is
never cancelled).  Phase A (cached, fixed name "google.com") enters
`min query_count k` iterations; phase B (uncached, random names) enters
`min query_count (k - query_count)` iterations, because once the flag is seen
`False` every later read is `False` as well. -/
def BenchThread.test_single_server (query_count k : ℕ)
    (cachedProbe uncachedProbe : ℕ → Option ℚ) (name ip : String) : ServerResult :=
  let cached_times := collectTimes cachedProbe (min query_count k)
  let uncached_times := collectTimes uncachedProbe (min query_count (k - query_count))
  let all_times := cached_times ++ uncached_times
  let cached_avg : ℚ := if cached_times.isEmpty then 0 else mean cached_times
  let uncached_avg : ℚ := if uncached_times.isEmpty then 0 else mean uncached_times
  let overall_avg : ℚ :=
    if cached_avg ≠ 0 ∧ uncached_avg ≠ 0 then (cached_avg + uncached_avg) / 2
    else max cached_avg uncached_avg
  { name := name
    ip := ip
    cached_avg := cached_avg
    uncached_avg := uncached_avg
    overall_avg := overall_avg
    min_time := if all_times.isEmpty then 0 else listMin all_times
    max_time := if all_times.isEmpty then 0 else listMax all_times
    reliability :=
      if query_count = 0 then 0
      else (all_times.length : ℚ) / ((query_count : ℚ) * 2) * 100
    total_queries := query_count * 2
    successful := all_times.length }

/-- A probe stream (server index, probe index) that always fails — the stub
DnsClient that always times out. -/
def probeNone : ℕ → ℕ → Option ℚ := fun _ _ => none

/-- A single-server probe stream that always fails. -/
def failProbe : ℕ → Option ℚ := fun _ => none

/-- A probe stream answering every query in 10 ms. -/
def p10 : ℕ → Option ℚ := fun _ => some 10

/-- A probe stream answering every query in 20 ms. -/
def p20 : ℕ → Option ℚ := fun _ => some 20

-- ### The progress percentage, bit-exact

/-- Smallest `s` (up to `fuel`, always ample here) with `b ≤ a * 2 ^ s`. -/
def scaleFor (a b : ℕ) : ℕ → ℕ
  | 0 => 0
  | fuel + 1 => if b ≤ a then 0 else scaleFor (2 * a) b fuel + 1

/-- Round-half-to-even of the fraction `a / b` (for `b ≠ 0`). -/
def roundHalfEvenDiv (a b : ℕ) : ℕ :=
  let n := a / b
  let r := a % b
  if 2 * r < b then n
  else if b < 2 * r then n + 1
  else if n % 2 = 0 then n else n + 1

/-- `int((idx / total) * 100)` computed exactly as CPython does on IEEE-754
doubles: `idx / total` is the correctly-rounded (round-to-nearest, ties to
even) double `m1 / 2 ^ s1` with `2 ^ 52 ≤ m1 ≤ 2 ^ 53`; the product with the
exactly-representable double `100.0` is rounded the same way to `m2 / 2 ^ s2`;
`int` truncates toward zero.  This reproduces the float anomalies of the
source, e.g. `pyProgress 29 50 = 57` (not the exact floor 58) and
`pyProgress 28 100 = pyProgress 29 100 = 28`. -/
def pyProgress (idx total : ℕ) : ℕ :=
  if idx = 0 ∨ total = 0 then 0
  else
    let s1 := scaleFor idx (total * 2 ^ 52) 200
    let m1 := roundHalfEvenDiv (idx * 2 ^ s1) total
    let s2 := scaleFor (100 * m1) (2 ^ s1 * 2 ^ 52) 200
    let m2 := roundHalfEvenDiv (100 * m1 * 2 ^ s2) (2 ^ s1)
    m2 / 2 ^ s2

-- ### The orchestrator (`BenchThread.run`, lines 681-711)

/-- Signals emitted by `BenchThread`: `progress` is the `pyqtSignal(int, str)`
pair, `finished` the `finished_signal(list)` payload, `error` the
`error_signal(str)` (never reached in the pure model, since no exception can
occur). -/
inductive Event where
  | progress (pct : ℕ) (msg : String)
  | finished (results : List ServerResult)
  | error (msg : String)
deriving DecidableEq, Repr

/-- The `for idx, (name, ip) in enumerate(self.servers.items())` loop of
`BenchThread.run`.  `probeA`/`probeB` give the probe outcomes for each
(server index, probe index); `total` is `len(self.servers)` (fixed before the
loop); `idx` the enumeration index; `r` the remaining budget of `_is_running`
reads that still see `True`.  A server iteration first reads the flag
(consuming 1 when it sees `True`; seeing `False` breaks), emits
`int(idx / total * 100), "Testing {name}..."`, runs the campaign (consuming
one read per probe-loop iteration entered, i.e. `2 * query_count` on an
uncancelled campaign), and appends its result. -/
def BenchThread.runFrom (query_count : ℕ) (probeA probeB : ℕ → ℕ → Option ℚ)
    (total : ℕ) :
    List (String × String) → ℕ → ℕ → List Event × List ServerResult × ℕ
  | [], _, r => ([], [], r)
  | (name, ip) :: rest, idx, r =>
    if r = 0 then ([], [], 0)
    else
      let res := BenchThread.test_single_server query_count (r - 1)
        (probeA idx) (probeB idx) name ip
      let t := BenchThread.runFrom query_count probeA probeB total rest (idx + 1)
        (r - 1 - 2 * query_count)
      (Event.progress (pyProgress idx total) ("Testing " ++ name ++ "...") :: t.1,
       res :: t.2.1, t.2.2)

/-- `BenchThread.run` (lines 681-711): the full loop, then — only when the
final `if self._is_running` read still sees `True` (remaining budget nonzero)
— the `(100, "Complete!")` progress event and the `finished_signal` carrying
the accumulated results.  When cancellation is observed, neither signal is
emitted and the local `results` list is dropped.  The triple returned here is
(emitted events, the thread-local `results` list, remaining read budget). -/
def BenchThread.runFull (query_count : ℕ) (probeA probeB : ℕ → ℕ → Option ℚ)
    (servers : List (String × String)) (budget : ℕ) :
    List Event × List ServerResult × ℕ :=
  let t := BenchThread.runFrom query_count probeA probeB servers.length servers 0 budget
  if t.2.2 = 0 then t
  else (t.1 ++ [Event.progress 100 "Complete!", Event.finished t.2.1], t.2.1, t.2.2)

/-- The events a caller observes from one `BenchThread.run` execution. -/
def BenchThread.run (query_count : ℕ) (probeA probeB : ℕ → ℕ → Option ℚ)
    (servers : List (String × String)) (budget : ℕ) : List Event :=
  (BenchThread.runFull query_count probeA probeB servers budget).1

/-- Whether a `finished_signal` was delivered. -/
def hasFinished (evs : List Event) : Bool :=
  evs.any fun e => match e with
    | Event.finished _ => true
    | _ => false

/-- Whether an `error_signal` was delivered. -/
def hasError (evs : List Event) : Bool :=
  evs.any fun e => match e with
    | Event.error _ => true
    | _ => false

/-- The progress percentages, in emission order. -/
def progressValues (evs : List Event) : List ℕ :=
  evs.filterMap fun e => match e with
    | Event.progress p _ => some p
    | _ => none

/-- The per-server progress events an uncancelled run emits before each
campaign: `int(idx / total * 100)` paired with `"Testing {name}..."`. -/
def testingEvents (total : ℕ) :
    List (String × String) → ℕ → List Event
  | [], _ => []
  | (name, _) :: rest, idx =>
    Event.progress (pyProgress idx total) ("Testing " ++ name ++ "...") ::
      testingEvents total rest (idx + 1)

/-- The results an uncancelled run accumulates: each server's campaign run to
completion (read budget `2 * query_count`). -/
def fullResults (query_count : ℕ) (probeA probeB : ℕ → ℕ → Option ℚ) :
    List (String × String) → ℕ → List ServerResult
  | [], _ => []
  | (name, ip) :: rest, idx =>
    BenchThread.test_single_server query_count (2 * query_count)
      (probeA idx) (probeB idx) name ip ::
      fullResults query_count probeA probeB rest (idx + 1)

/-- `MainWindow.start_benchmark` (lines 1568-1591): a `BenchThread` is
constructed and started only when the selected server mapping is nonempty; an
empty selection pops a warning box and returns without starting a run. -/
def start_benchmark (servers : List (String × String)) (query_count : ℕ) :
    Option (List (String × String) × ℕ) :=
  if servers.isEmpty then none else some (servers, query_count)


/-- A 101-target list: a legal input to the orchestrator on which the
progress percentages repeat. -/
def servers101 : List (String × String) := List.replicate 101 ("s", "ip")

-- ### The security checker (`SecurityThread`, lines 778-825)

/-- The record types `SecurityThread.run` inspects in the answer section of a
response: `dns.rdatatype.DNSKEY`, `dns.rdatatype.RRSIG`, or anything else. -/
inductive Rd where
  | dnskey
  | rrsig
  | other
deriving DecidableEq, Repr

/-- The classification of one server inside `SecurityThread.run` (lines
794-812): `none` models every failing path of the probe (timeout, transport
error, or a malformed response raising during parsing) — the `except:` arm
leaves `status = "error"`.  On a well-formed response the answer section's
rrset types decide the status exactly as the source's conditional expression
`"valid" if has_rrsig else "signed" if has_dnskey else "unsigned"`. -/
def SecurityThread.classify (resp : Option (List Rd)) : String :=
  match resp with
  | none => "error"
  | some answer =>
      let has_dnskey := answer.any fun r => r == Rd.dnskey
      let has_rrsig := answer.any fun r => r == Rd.rrsig
      if has_rrsig then "valid" else if has_dnskey then "signed" else "unsigned"

/-- Observable actions of `SecurityThread.run`: one `probe` per
`dns.query.udp` call (identified by the server's index), the
`result.emit(name, status)` pair, the `progress.emit` percentage, and the
final `finished_signal`. -/
inductive SecEvent where
  | probe (serverIdx : ℕ)
  | result (name : String) (status : String)
  | progress (pct : ℕ)
  | finishedSig
deriving DecidableEq, Repr

/-- The `for i, (name, ip) in enumerate(self.servers.items())` loop of
`SecurityThread.run`: one flag read per server iteration (budget `r`), one
single probe per processed server — the source sends exactly one
`dns.query.udp` with no retry — then the result and progress emissions. -/
def SecurityThread.runFrom (client : ℕ → Option (List Rd)) (total : ℕ) :
    List (String × String) → ℕ → ℕ → List SecEvent
  | [], _, _ => []
  | (name, _) :: rest, i, r =>
    if r = 0 then []
    else
      SecEvent.probe i ::
        SecEvent.result name (SecurityThread.classify (client i)) ::
        SecEvent.progress (pyProgress (i + 1) total) ::
        SecurityThread.runFrom client total rest (i + 1) (r - 1)

/-- `SecurityThread.run` (lines 788-822): the loop, then the unconditional
`finished_signal.emit()`. -/
def SecurityThread.run (client : ℕ → Option (List Rd))
    (servers : List (String × String)) (budget : ℕ) : List SecEvent :=
  SecurityThread.runFrom client servers.length servers 0 budget ++
    [SecEvent.finishedSig]

/-- The server indices probed during a run, in order. -/
def probesOf (evs : List SecEvent) : List ℕ :=
  evs.filterMap fun e => match e with
    | SecEvent.probe i => some i
    | _ => none

/-- A stubbed DnsClient whose answer section holds exactly one
signing-key-type record. -/
def clientDnskey : ℕ → Option (List Rd) := fun _ => some [Rd.dnskey]

-- ### Phase B domain generation (`test_single_server`, lines 735-737)

/-- `string.ascii_lowercase[j]`. -/
def asciiLowercase (j : Fin 26) : Char := Char.ofNat (97 + j.val)

/-- The f-string `f"{''.join(random.choices(string.ascii_lowercase, k=8))}.com"`:
eight letters drawn independently (with replacement) from the lowercase
alphabet, then the fixed ".com" suffix.  `letters` abstracts the PRNG draws:
any function `ℕ → Fin 26` is a possible outcome of `random.choices`. -/
def randomSubdomain (letters : ℕ → Fin 26) : String :=
  String.mk ((List.range 8).map fun j => asciiLowercase (letters j)) ++ ".com"

/-- The domain queried by Phase B probe `i` of one campaign, with
`letters i j` the `j`-th PRNG draw of that probe's name. -/
def phaseBDomain (letters : ℕ → ℕ → Fin 26) (i : ℕ) : String :=
  randomSubdomain (letters i)

-- ### Basic lemmas about the aggregation helpers

lemma collectTimes_pos {p : ℕ → Option ℚ} {n : ℕ} {x : ℚ}
    (hx : x ∈ collectTimes p n) : 0 < x := by
  have := List.of_mem_filter hx
  simpa using this

lemma collectTimes_length_le (p : ℕ → Option ℚ) (n : ℕ) :
    (collectTimes p n).length ≤ n := by
  calc (collectTimes p n).length
      ≤ ((List.range n).filterMap p).length := List.length_filter_le _ _
    _ ≤ (List.range n).length := List.length_filterMap_le _ _
    _ = n := List.length_range n

lemma collectTimes_none (n : ℕ) : collectTimes failProbe n = [] := by
  simp [collectTimes, failProbe]

lemma mean_pos {l : List ℚ} (hne : l ≠ []) (hpos : ∀ x ∈ l, 0 < x) :
    0 < mean l := by
  have hlen : 0 < (l.length : ℚ) := by
    exact_mod_cast List.length_pos.mpr hne
  exact div_pos (List.sum_pos l hpos hne) hlen

lemma le_mean {l : List ℚ} {a : ℚ} (hne : l ≠ []) (h : ∀ x ∈ l, a ≤ x) :
    a ≤ mean l := by
  have hlen : 0 < (l.length : ℚ) := by
    exact_mod_cast List.length_pos.mpr hne
  rw [mean, le_div_iff₀ hlen]
  have := List.card_nsmul_le_sum l a h
  simpa [nsmul_eq_mul, mul_comm] using this

lemma mean_le {l : List ℚ} {a : ℚ} (hne : l ≠ []) (h : ∀ x ∈ l, x ≤ a) :
    mean l ≤ a := by
  have hlen : 0 < (l.length : ℚ) := by
    exact_mod_cast List.length_pos.mpr hne
  rw [mean, div_le_iff₀ hlen]
  have := List.sum_le_card_nsmul l a h
  simpa [nsmul_eq_mul, mul_comm] using this

lemma foldl_min_le_init : ∀ (t : List ℚ) (a : ℚ), t.foldl min a ≤ a := by
  intro t
  induction t with
  | nil => intro a; exact le_refl a
  | cons b t ih =>
      intro a
      calc (b :: t).foldl min a = t.foldl min (min a b) := rfl
        _ ≤ min a b := ih (min a b)
        _ ≤ a := min_le_left a b

lemma le_foldl_max_init : ∀ (t : List ℚ) (a : ℚ), a ≤ t.foldl max a := by
  intro t
  induction t with
  | nil => intro a; exact le_refl a
  | cons b t ih =>
      intro a
      calc a ≤ max a b := le_max_left a b
        _ ≤ t.foldl max (max a b) := ih (max a b)
        _ = (b :: t).foldl max a := rfl

lemma foldl_min_le_of_mem : ∀ (t : List ℚ) (a x : ℚ), x ∈ t → t.foldl min a ≤ x := by
  intro t
  induction t with
  | nil => intro a x hx; cases hx
  | cons b t ih =>
      intro a x hx
      rcases List.mem_cons.mp hx with hxb | hx'
      · subst hxb
        calc (x :: t).foldl min a = t.foldl min (min a x) := rfl
          _ ≤ min a x := foldl_min_le_init t (min a x)
          _ ≤ x := min_le_right a x
      · exact ih (min a b) x hx'

lemma le_foldl_max_of_mem : ∀ (t : List ℚ) (a x : ℚ), x ∈ t → x ≤ t.foldl max a := by
  intro t
  induction t with
  | nil => intro a x hx; cases hx
  | cons b t ih =>
      intro a x hx
      rcases List.mem_cons.mp hx with hxb | hx'
      · subst hxb
        calc x ≤ max a x := le_max_right a x
          _ ≤ t.foldl max (max a x) := le_foldl_max_init t _
          _ = (x :: t).foldl max a := rfl
      · exact ih (max a b) x hx'

lemma listMin_le_of_mem {l : List ℚ} {x : ℚ} (hx : x ∈ l) : listMin l ≤ x := by
  match l with
  | [] => cases hx
  | a :: t =>
      show t.foldl min a ≤ x
      rcases List.mem_cons.mp hx with rfl | hx'
      · exact foldl_min_le_init t x
      · exact foldl_min_le_of_mem t a x hx'

lemma le_listMax_of_mem {l : List ℚ} {x : ℚ} (hx : x ∈ l) : x ≤ listMax l := by
  match l with
  | [] => cases hx
  | a :: t =>
      show x ≤ t.foldl max a
      rcases List.mem_cons.mp hx with rfl | hx'
      · exact le_foldl_max_init t x
      · exact le_foldl_max_of_mem t a x hx'

lemma phaseAvg_nonneg {l : List ℚ} (h : ∀ x ∈ l, 0 < x) :
    0 ≤ (if l.isEmpty then 0 else mean l) := by
  split_ifs with hl
  · exact le_refl 0
  · have hne : l ≠ [] := by simpa using hl
    exact (mean_pos hne h).le

lemma phaseAvg_pos_iff {l : List ℚ} (h : ∀ x ∈ l, 0 < x) :
    (0 < (if l.isEmpty then 0 else mean l)) ↔ l ≠ [] := by
  split_ifs with hl
  · have : l = [] := by simpa using hl
    simp [this]
  · have hne : l ≠ [] := by simpa using hl
    simp [hne, mean_pos hne h]

-- ### Claim theorems about ServerTester (`BenchThread.test_single_server`)

/-- C8: for a DnsClient whose calls all fail (e.g. one that always times out),
the campaign still returns a well-formed `ServerResult` with
`reliability = 0` and `cached_avg = uncached_avg = overall_avg = 0` (and zero
min/max/successful, `total_queries = qc * 2`), for every query count and every
cancellation point; the embedding is a total function, mirroring the source's
`try`/`except` walls that let no per-probe exception escape
`test_single_server`. -/
theorem c8_all_failures_zero_result (qc k : ℕ) (nm ip : String) :
    BenchThread.test_single_server qc k failProbe failProbe nm ip =
      { name := nm, ip := ip, cached_avg := 0, uncached_avg := 0,
        overall_avg := 0, min_time := 0, max_time := 0, reliability := 0,
        total_queries := qc * 2, successful := 0 } := by
  simp only [BenchThread.test_single_server, collectTimes_none]
  split_ifs with h <;> simp_all

/-- C10: the returned `ServerResult` always records
`total_queries = 2 * query_count`, even when cancellation (`k < 2 * qc`)
stopped the campaign before all probes were issued: `successful` is bounded by
the probes actually entered (`min qc k` cached plus `min qc (k - qc)` uncached)
while the reliability denominator stays `qc * 2`, so never-sent probes count
as failures in a cancelled partial result. -/
theorem c10_total_queries_counts_unsent (qc k : ℕ) (pA pB : ℕ → Option ℚ)
    (nm ip : String) :
    (BenchThread.test_single_server qc k pA pB nm ip).total_queries = 2 * qc
    ∧ (BenchThread.test_single_server qc k pA pB nm ip).successful ≤
        min qc k + min qc (k - qc)
    ∧ (BenchThread.test_single_server qc k pA pB nm ip).reliability =
        (if qc = 0 then 0
         else ((BenchThread.test_single_server qc k pA pB nm ip).successful : ℚ) /
           ((qc : ℚ) * 2) * 100) := by
  refine ⟨by simp [BenchThread.test_single_server, Nat.mul_comm], ?_, ?_⟩
  · simp only [BenchThread.test_single_server, List.length_append]
    exact Nat.add_le_add (collectTimes_length_le pA _) (collectTimes_length_le pB _)
  · simp [BenchThread.test_single_server]

/-- C3: every `ServerResult` produced by a campaign — under any mix of query
successes, failures and mid-campaign cancellation — satisfies
`0 ≤ reliability ≤ 100`, `successful ≤ total_queries`, and
`reliability = successful / total_queries * 100` with `reliability = 0` when
`total_queries = 0`. -/
theorem c3_reliability_invariants (qc k : ℕ) (pA pB : ℕ → Option ℚ)
    (nm ip : String) :
    0 ≤ (BenchThread.test_single_server qc k pA pB nm ip).reliability
    ∧ (BenchThread.test_single_server qc k pA pB nm ip).reliability ≤ 100
    ∧ (BenchThread.test_single_server qc k pA pB nm ip).successful ≤
        (BenchThread.test_single_server qc k pA pB nm ip).total_queries
    ∧ (BenchThread.test_single_server qc k pA pB nm ip).reliability =
        (if (BenchThread.test_single_server qc k pA pB nm ip).total_queries = 0 then 0
         else ((BenchThread.test_single_server qc k pA pB nm ip).successful : ℚ) /
           ((BenchThread.test_single_server qc k pA pB nm ip).total_queries : ℚ) * 100) := by
  have hlen : (collectTimes pA (min qc k) ++ collectTimes pB (min qc (k - qc))).length
      ≤ qc * 2 := by
    rw [List.length_append]
    calc (collectTimes pA (min qc k)).length + (collectTimes pB (min qc (k - qc))).length
        ≤ min qc k + min qc (k - qc) :=
          Nat.add_le_add (collectTimes_length_le pA _) (collectTimes_length_le pB _)
      _ ≤ qc + qc := Nat.add_le_add (Nat.min_le_left _ _) (Nat.min_le_left _ _)
      _ = qc * 2 := by ring
  refine ⟨?_, ?_, ?_, ?_⟩
  · simp only [BenchThread.test_single_server]
    split_ifs with h
    · exact le_refl 0
    · have hq : (0 : ℚ) < (qc : ℚ) * 2 := by
        have : 0 < qc := Nat.pos_of_ne_zero h
        positivity
      positivity
  · simp only [BenchThread.test_single_server]
    split_ifs with h
    · norm_num
    · have hq : (0 : ℚ) < (qc : ℚ) * 2 := by
        have : 0 < qc := Nat.pos_of_ne_zero h
        positivity
      have hle : ((collectTimes pA (min qc k) ++ collectTimes pB (min qc (k - qc))).length : ℚ)
          ≤ (qc : ℚ) * 2 := by
        exact_mod_cast hlen
      have hdiv : ((collectTimes pA (min qc k) ++ collectTimes pB (min qc (k - qc))).length : ℚ)
          / ((qc : ℚ) * 2) ≤ 1 := (div_le_one hq).mpr hle
      nlinarith [hdiv]
  · simp only [BenchThread.test_single_server]
    calc (collectTimes pA (min qc k) ++ collectTimes pB (min qc (k - qc))).length
        ≤ qc * 2 := hlen
      _ = qc * 2 := rfl
  · simp only [BenchThread.test_single_server]
    by_cases h : qc = 0
    · subst h; simp
    · have h2 : ¬(qc * 2 = 0) := by omega
      rw [if_neg h, if_neg h2]
      push_cast
      ring

/-- C1: the reduced `ServerResult`'s overall average is the mean of the two
phase averages when both phases have data, equals whichever phase average is
nonzero when exactly one phase has data, and is `0` when neither phase has
data; moreover a phase average is positive exactly when that phase collected
at least one successful sample (the source's Python truthiness test
`if cached_avg and uncached_avg` coincides with "both phases have data"
because collected samples are strictly positive). -/
theorem c1_overall_avg_spec (qc k : ℕ) (pA pB : ℕ → Option ℚ) (nm ip : String) :
    (0 < (BenchThread.test_single_server qc k pA pB nm ip).cached_avg →
      0 < (BenchThread.test_single_server qc k pA pB nm ip).uncached_avg →
      (BenchThread.test_single_server qc k pA pB nm ip).overall_avg =
        ((BenchThread.test_single_server qc k pA pB nm ip).cached_avg +
          (BenchThread.test_single_server qc k pA pB nm ip).uncached_avg) / 2)
    ∧ (0 < (BenchThread.test_single_server qc k pA pB nm ip).cached_avg →
      (BenchThread.test_single_server qc k pA pB nm ip).uncached_avg = 0 →
      (BenchThread.test_single_server qc k pA pB nm ip).overall_avg =
        (BenchThread.test_single_server qc k pA pB nm ip).cached_avg)
    ∧ ((BenchThread.test_single_server qc k pA pB nm ip).cached_avg = 0 →
      0 < (BenchThread.test_single_server qc k pA pB nm ip).uncached_avg →
      (BenchThread.test_single_server qc k pA pB nm ip).overall_avg =
        (BenchThread.test_single_server qc k pA pB nm ip).uncached_avg)
    ∧ ((BenchThread.test_single_server qc k pA pB nm ip).cached_avg = 0 →
      (BenchThread.test_single_server qc k pA pB nm ip).uncached_avg = 0 →
      (BenchThread.test_single_server qc k pA pB nm ip).overall_avg = 0)
    ∧ 0 ≤ (BenchThread.test_single_server qc k pA pB nm ip).cached_avg
    ∧ 0 ≤ (BenchThread.test_single_server qc k pA pB nm ip).uncached_avg
    ∧ (0 < (BenchThread.test_single_server qc k pA pB nm ip).cached_avg ↔
        collectTimes pA (min qc k) ≠ [])
    ∧ (0 < (BenchThread.test_single_server qc k pA pB nm ip).uncached_avg ↔
        collectTimes pB (min qc (k - qc)) ≠ []) := by
  have hc : ∀ x ∈ collectTimes pA (min qc k), 0 < x := fun x hx => collectTimes_pos hx
  have hu : ∀ x ∈ collectTimes pB (min qc (k - qc)), 0 < x :=
    fun x hx => collectTimes_pos hx
  have ec : (BenchThread.test_single_server qc k pA pB nm ip).cached_avg =
      (if (collectTimes pA (min qc k)).isEmpty then 0
       else mean (collectTimes pA (min qc k))) := rfl
  have eu : (BenchThread.test_single_server qc k pA pB nm ip).uncached_avg =
      (if (collectTimes pB (min qc (k - qc))).isEmpty then 0
       else mean (collectTimes pB (min qc (k - qc)))) := rfl
  have eo : (BenchThread.test_single_server qc k pA pB nm ip).overall_avg =
      (if (BenchThread.test_single_server qc k pA pB nm ip).cached_avg ≠ 0 ∧
          (BenchThread.test_single_server qc k pA pB nm ip).uncached_avg ≠ 0 then
        ((BenchThread.test_single_server qc k pA pB nm ip).cached_avg +
          (BenchThread.test_single_server qc k pA pB nm ip).uncached_avg) / 2
       else max (BenchThread.test_single_server qc k pA pB nm ip).cached_avg
         (BenchThread.test_single_server qc k pA pB nm ip).uncached_avg) := rfl
  have hcn : 0 ≤ (BenchThread.test_single_server qc k pA pB nm ip).cached_avg :=
    ec ▸ phaseAvg_nonneg hc
  have hun : 0 ≤ (BenchThread.test_single_server qc k pA pB nm ip).uncached_avg :=
    eu ▸ phaseAvg_nonneg hu
  refine ⟨?_, ?_, ?_, ?_, hcn, hun, ec ▸ phaseAvg_pos_iff hc, eu ▸ phaseAvg_pos_iff hu⟩
  · intro h1 h2
    rw [eo, if_pos ⟨ne_of_gt h1, ne_of_gt h2⟩]
  · intro h1 h2
    rw [eo, if_neg (by simp [h2]), h2]
    exact max_eq_left hcn
  · intro h1 h2
    rw [eo, if_neg (by simp [h1]), h1]
    exact max_eq_right hun
  · intro h1 h2
    rw [eo, if_neg (by simp [h1]), h1, h2]
    simp

/-- Witness for C1 at a concrete campaign: one query per phase, cached probes
answer in 10 ms and uncached ones in 20 ms, so both phases have data and the
overall average is their mean. -/
theorem c1_overall_avg_spec_witness :
    0 < (BenchThread.test_single_server 1 2 p10 p20 "n" "i").cached_avg
    ∧ 0 < (BenchThread.test_single_server 1 2 p10 p20 "n" "i").uncached_avg
    ∧ (BenchThread.test_single_server 1 2 p10 p20 "n" "i").overall_avg =
        ((BenchThread.test_single_server 1 2 p10 p20 "n" "i").cached_avg +
          (BenchThread.test_single_server 1 2 p10 p20 "n" "i").uncached_avg) / 2 := by
  have hc : 0 < (BenchThread.test_single_server 1 2 p10 p20 "n" "i").cached_avg := by
    simp [BenchThread.test_single_server, collectTimes, mean, p10, p20, List.range_succ]
  have hu : 0 < (BenchThread.test_single_server 1 2 p10 p20 "n" "i").uncached_avg := by
    simp [BenchThread.test_single_server, collectTimes, mean, p10, p20, List.range_succ]
  exact ⟨hc, hu, (c1_overall_avg_spec 1 2 p10 p20 "n" "i").1 hc hu⟩

/-- C6: whenever a campaign had at least one successful query, the result's
`min_time` and `max_time` are the minimum and maximum over the union of the
successful cached and uncached samples, and
`min_time ≤ overall_avg ≤ max_time`. -/
theorem c6_min_overall_max (qc k : ℕ) (pA pB : ℕ → Option ℚ) (nm ip : String)
    (h : 0 < (BenchThread.test_single_server qc k pA pB nm ip).successful) :
    (BenchThread.test_single_server qc k pA pB nm ip).min_time =
      listMin (collectTimes pA (min qc k) ++ collectTimes pB (min qc (k - qc)))
    ∧ (BenchThread.test_single_server qc k pA pB nm ip).max_time =
      listMax (collectTimes pA (min qc k) ++ collectTimes pB (min qc (k - qc)))
    ∧ (BenchThread.test_single_server qc k pA pB nm ip).min_time ≤
      (BenchThread.test_single_server qc k pA pB nm ip).overall_avg
    ∧ (BenchThread.test_single_server qc k pA pB nm ip).overall_avg ≤
      (BenchThread.test_single_server qc k pA pB nm ip).max_time := by
  have hall : (collectTimes pA (min qc k) ++ collectTimes pB (min qc (k - qc))) ≠ [] := by
    intro hnil
    have : (BenchThread.test_single_server qc k pA pB nm ip).successful = 0 := by
      show (collectTimes pA (min qc k) ++ collectTimes pB (min qc (k - qc))).length = 0
      simp [hnil]
    omega
  have hne : ((collectTimes pA (min qc k) ++
      collectTimes pB (min qc (k - qc))).isEmpty) = false := by
    simpa using hall
  have emin : (BenchThread.test_single_server qc k pA pB nm ip).min_time =
      listMin (collectTimes pA (min qc k) ++ collectTimes pB (min qc (k - qc))) := by
    show (if (collectTimes pA (min qc k) ++
        collectTimes pB (min qc (k - qc))).isEmpty then (0 : ℚ)
      else listMin (collectTimes pA (min qc k) ++ collectTimes pB (min qc (k - qc)))) = _
    rw [hne]
    simp
  have emax : (BenchThread.test_single_server qc k pA pB nm ip).max_time =
      listMax (collectTimes pA (min qc k) ++ collectTimes pB (min qc (k - qc))) := by
    show (if (collectTimes pA (min qc k) ++
        collectTimes pB (min qc (k - qc))).isEmpty then (0 : ℚ)
      else listMax (collectTimes pA (min qc k) ++ collectTimes pB (min qc (k - qc)))) = _
    rw [hne]
    simp
  have ec : (BenchThread.test_single_server qc k pA pB nm ip).cached_avg =
      (if (collectTimes pA (min qc k)).isEmpty then 0
       else mean (collectTimes pA (min qc k))) := rfl
  have eu : (BenchThread.test_single_server qc k pA pB nm ip).uncached_avg =
      (if (collectTimes pB (min qc (k - qc))).isEmpty then 0
       else mean (collectTimes pB (min qc (k - qc)))) := rfl
  have eo : (BenchThread.test_single_server qc k pA pB nm ip).overall_avg =
      (if (BenchThread.test_single_server qc k pA pB nm ip).cached_avg ≠ 0 ∧
          (BenchThread.test_single_server qc k pA pB nm ip).uncached_avg ≠ 0 then
        ((BenchThread.test_single_server qc k pA pB nm ip).cached_avg +
          (BenchThread.test_single_server qc k pA pB nm ip).uncached_avg) / 2
       else max (BenchThread.test_single_server qc k pA pB nm ip).cached_avg
         (BenchThread.test_single_server qc k pA pB nm ip).uncached_avg) := rfl
  have hlo : ∀ x ∈ collectTimes pA (min qc k) ++ collectTimes pB (min qc (k - qc)),
      listMin (collectTimes pA (min qc k) ++ collectTimes pB (min qc (k - qc))) ≤ x ∧
      x ≤ listMax (collectTimes pA (min qc k) ++ collectTimes pB (min qc (k - qc))) :=
    fun x hx => ⟨listMin_le_of_mem hx, le_listMax_of_mem hx⟩
  have hmem : ∀ x ∈ collectTimes pA (min qc k),
      x ∈ collectTimes pA (min qc k) ++ collectTimes pB (min qc (k - qc)) :=
    fun x hx => List.mem_append_left _ hx
  have hmem' : ∀ x ∈ collectTimes pB (min qc (k - qc)),
      x ∈ collectTimes pA (min qc k) ++ collectTimes pB (min qc (k - qc)) :=
    fun x hx => List.mem_append_right _ hx
  have hbounds :
      listMin (collectTimes pA (min qc k) ++ collectTimes pB (min qc (k - qc))) ≤
        (BenchThread.test_single_server qc k pA pB nm ip).overall_avg ∧
      (BenchThread.test_single_server qc k pA pB nm ip).overall_avg ≤
        listMax (collectTimes pA (min qc k) ++ collectTimes pB (min qc (k - qc))) := by
    by_cases hct0 : collectTimes pA (min qc k) = []
    · by_cases hut0 : collectTimes pB (min qc (k - qc)) = []
      · exact absurd (by simp [hct0, hut0]) hall
      · -- only the uncached phase has data
        have hutE : (collectTimes pB (min qc (k - qc))).isEmpty = false := by
          simpa using hut0
        have hc0 : (BenchThread.test_single_server qc k pA pB nm ip).cached_avg = 0 := by
          rw [ec]
          simp [hct0]
        have hum : (BenchThread.test_single_server qc k pA pB nm ip).uncached_avg =
            mean (collectTimes pB (min qc (k - qc))) := by
          rw [eu, hutE]
          simp
        have hupos : 0 < mean (collectTimes pB (min qc (k - qc))) :=
          mean_pos hut0 (fun x hx => collectTimes_pos hx)
        have hov : (BenchThread.test_single_server qc k pA pB nm ip).overall_avg =
            mean (collectTimes pB (min qc (k - qc))) := by
          rw [eo, if_neg (by simp [hc0]), hc0, hum]
          exact max_eq_right hupos.le
        rw [hov]
        constructor
        · exact le_mean hut0 fun x hx => listMin_le_of_mem (hmem' x hx)
        · exact mean_le hut0 fun x hx => le_listMax_of_mem (hmem' x hx)
    · by_cases hut0 : collectTimes pB (min qc (k - qc)) = []
      · -- only the cached phase has data
        have hctE : (collectTimes pA (min qc k)).isEmpty = false := by
          simpa using hct0
        have hu0 : (BenchThread.test_single_server qc k pA pB nm ip).uncached_avg = 0 := by
          rw [eu]
          simp [hut0]
        have hcm : (BenchThread.test_single_server qc k pA pB nm ip).cached_avg =
            mean (collectTimes pA (min qc k)) := by
          rw [ec, hctE]
          simp
        have hcpos : 0 < mean (collectTimes pA (min qc k)) :=
          mean_pos hct0 (fun x hx => collectTimes_pos hx)
        have hov : (BenchThread.test_single_server qc k pA pB nm ip).overall_avg =
            mean (collectTimes pA (min qc k)) := by
          rw [eo, if_neg (by simp [hu0]), hu0, hcm]
          exact max_eq_left hcpos.le
        rw [hov]
        constructor
        · exact le_mean hct0 fun x hx => listMin_le_of_mem (hmem x hx)
        · exact mean_le hct0 fun x hx => le_listMax_of_mem (hmem x hx)
      · -- both phases have data
        have hctE : (collectTimes pA (min qc k)).isEmpty = false := by
          simpa using hct0
        have hutE : (collectTimes pB (min qc (k - qc))).isEmpty = false := by
          simpa using hut0
        have hcm : (BenchThread.test_single_server qc k pA pB nm ip).cached_avg =
            mean (collectTimes pA (min qc k)) := by
          rw [ec, hctE]
          simp
        have hum : (BenchThread.test_single_server qc k pA pB nm ip).uncached_avg =
            mean (collectTimes pB (min qc (k - qc))) := by
          rw [eu, hutE]
          simp
        have hcpos : 0 < mean (collectTimes pA (min qc k)) :=
          mean_pos hct0 (fun x hx => collectTimes_pos hx)
        have hupos : 0 < mean (collectTimes pB (min qc (k - qc))) :=
          mean_pos hut0 (fun x hx => collectTimes_pos hx)
        have hov : (BenchThread.test_single_server qc k pA pB nm ip).overall_avg =
            (mean (collectTimes pA (min qc k)) +
              mean (collectTimes pB (min qc (k - qc)))) / 2 := by
          rw [eo, if_pos ⟨by rw [hcm]; exact ne_of_gt hcpos,
            by rw [hum]; exact ne_of_gt hupos⟩, hcm, hum]
        have h1 := le_mean hct0 fun x hx => listMin_le_of_mem (hmem x hx)
        have h2 := le_mean hut0 fun x hx => listMin_le_of_mem (hmem' x hx)
        have h3 := mean_le hct0 fun x hx => le_listMax_of_mem (hmem x hx)
        have h4 := mean_le hut0 fun x hx => le_listMax_of_mem (hmem' x hx)
        rw [hov]
        constructor <;> linarith
  exact ⟨emin, emax, by rw [emin]; exact hbounds.1, by rw [emax]; exact hbounds.2⟩

/-- Witness for C6 at a concrete campaign with one successful 10 ms cached
sample and one successful 20 ms uncached sample. -/
theorem c6_min_overall_max_witness :
    0 < (BenchThread.test_single_server 1 2 p10 p20 "n" "i").successful
    ∧ (BenchThread.test_single_server 1 2 p10 p20 "n" "i").min_time ≤
        (BenchThread.test_single_server 1 2 p10 p20 "n" "i").overall_avg
    ∧ (BenchThread.test_single_server 1 2 p10 p20 "n" "i").overall_avg ≤
        (BenchThread.test_single_server 1 2 p10 p20 "n" "i").max_time := by
  have h : 0 < (BenchThread.test_single_server 1 2 p10 p20 "n" "i").successful := by
    simp [BenchThread.test_single_server, collectTimes, p10, p20, List.range_succ]
  have hall := c6_min_overall_max 1 2 p10 p20 "n" "i" h
  exact ⟨h, hall.2.2.1, hall.2.2.2⟩

-- ### Orchestrator lemmas

lemma test_single_server_budget_ge (qc k : ℕ) (pA pB : ℕ → Option ℚ)
    (nm ip : String) (h : 2 * qc ≤ k) :
    BenchThread.test_single_server qc k pA pB nm ip =
      BenchThread.test_single_server qc (2 * qc) pA pB nm ip := by
  have h1 : min qc k = qc := Nat.min_eq_left (by omega)
  have h2 : min qc (k - qc) = qc := Nat.min_eq_left (by omega)
  have h3 : min qc (2 * qc) = qc := Nat.min_eq_left (by omega)
  have h4 : min qc (2 * qc - qc) = qc := Nat.min_eq_left (by omega)
  simp only [BenchThread.test_single_server, h1, h2, h3, h4]

lemma runFrom_ample (qc : ℕ) (pA pB : ℕ → ℕ → Option ℚ) (total : ℕ) :
    ∀ (servers : List (String × String)) (idx r : ℕ),
      servers.length * (1 + 2 * qc) < r →
      BenchThread.runFrom qc pA pB total servers idx r =
        (testingEvents total servers idx, fullResults qc pA pB servers idx,
         r - servers.length * (1 + 2 * qc)) := by
  intro servers
  induction servers with
  | nil => intro idx r _; simp [BenchThread.runFrom, testingEvents, fullResults]
  | cons s rest ih =>
      intro idx r hr
      obtain ⟨nm, ip⟩ := s
      have hlen : ((nm, ip) :: rest).length * (1 + 2 * qc) =
          rest.length * (1 + 2 * qc) + (1 + 2 * qc) := by
        simp [List.length_cons]
        ring
      have hr0 : r ≠ 0 := by omega
      have hbudget : 2 * qc ≤ r - 1 := by omega
      have hrec : rest.length * (1 + 2 * qc) < r - 1 - 2 * qc := by omega
      rw [BenchThread.runFrom, if_neg hr0]
      rw [ih (idx + 1) (r - 1 - 2 * qc) hrec]
      rw [test_single_server_budget_ge qc (r - 1) (pA idx) (pB idx) nm ip hbudget]
      have harith : r - 1 - 2 * qc - rest.length * (1 + 2 * qc) =
          r - ((nm, ip) :: rest).length * (1 + 2 * qc) := by
        rw [hlen]
        omega
      simp only [testingEvents, fullResults, Prod.mk.injEq, harith]


lemma runFull_ample (qc : ℕ) (pA pB : ℕ → ℕ → Option ℚ)
    (servers : List (String × String)) (budget : ℕ)
    (hb : servers.length * (1 + 2 * qc) < budget) :
    BenchThread.runFull qc pA pB servers budget =
      (testingEvents servers.length servers 0 ++
        [Event.progress 100 "Complete!",
         Event.finished (fullResults qc pA pB servers 0)],
       fullResults qc pA pB servers 0,
       budget - servers.length * (1 + 2 * qc)) := by
  have hr := runFrom_ample qc pA pB servers.length servers 0 budget hb
  have hnz : budget - servers.length * (1 + 2 * qc) ≠ 0 := by omega
  simp [BenchThread.runFull, hr, hnz]

lemma runFrom_cancelAt (qc : ℕ) (pA pB : ℕ → ℕ → Option ℚ) (total : ℕ) :
    ∀ (servers : List (String × String)) (m idx : ℕ),
      m ≤ servers.length →
      BenchThread.runFrom qc pA pB total servers idx (m * (1 + 2 * qc)) =
        (testingEvents total (servers.take m) idx,
         fullResults qc pA pB (servers.take m) idx, 0) := by
  intro servers
  induction servers with
  | nil =>
      intro m idx hm
      have : m = 0 := by simpa using hm
      subst this
      simp [BenchThread.runFrom, testingEvents, fullResults]
  | cons s rest ih =>
      intro m idx hm
      obtain ⟨nm, ip⟩ := s
      cases m with
      | zero => simp [BenchThread.runFrom, testingEvents, fullResults]
      | succ m' =>
          have hme : (m' + 1) * (1 + 2 * qc) = m' * (1 + 2 * qc) + (1 + 2 * qc) := by
            ring
          have hr0 : (m' + 1) * (1 + 2 * qc) ≠ 0 := by omega
          have hbudget : 2 * qc ≤ (m' + 1) * (1 + 2 * qc) - 1 := by omega
          have hrec : (m' + 1) * (1 + 2 * qc) - 1 - 2 * qc = m' * (1 + 2 * qc) := by
            omega
          rw [BenchThread.runFrom, if_neg hr0, hrec]
          rw [ih m' (idx + 1) (by simpa using hm)]
          rw [test_single_server_budget_ge qc ((m' + 1) * (1 + 2 * qc) - 1)
            (pA idx) (pB idx) nm ip hbudget]
          simp [List.take_succ_cons, testingEvents, fullResults]

lemma testingEvents_no_finished (total : ℕ) :
    ∀ (servers : List (String × String)) (idx : ℕ),
      hasFinished (testingEvents total servers idx) = false := by
  intro servers
  induction servers with
  | nil => intro idx; rfl
  | cons s rest ih =>
      intro idx
      obtain ⟨nm, ip⟩ := s
      simp [testingEvents, hasFinished] at ih ⊢
      exact fun r hr => by simpa [hasFinished] using ih (idx + 1) r hr

lemma fullResults_length (qc : ℕ) (pA pB : ℕ → ℕ → Option ℚ) :
    ∀ (servers : List (String × String)) (idx : ℕ),
      (fullResults qc pA pB servers idx).length = servers.length := by
  intro servers
  induction servers with
  | nil => intro idx; rfl
  | cons s rest ih =>
      intro idx
      obtain ⟨nm, ip⟩ := s
      simp [fullResults, ih (idx + 1)]

lemma progressValues_append (a b : List Event) :
    progressValues (a ++ b) = progressValues a ++ progressValues b := by
  simp [progressValues]

/-- C2 (amended): cancelling at a server boundary after `m` completed
campaigns (`0 < m`, with servers still remaining) leaves the thread-local
results list holding exactly the `m` already-completed `ServerResult`s,
in input order and identical to what an uncancelled run computes for those
servers — but the orchestrator does NOT deliver them to the caller: a
cancelled run emits no `finished_signal` (the source's
`if self._is_running:` guard skips both `progress.emit(100, ...)` and
`finished_signal.emit(results)`). -/
theorem c2_cancellation_preserves_results (qc : ℕ) (pA pB : ℕ → ℕ → Option ℚ)
    (servers : List (String × String)) (m : ℕ)
    (h1 : 0 < m) (h2 : m < servers.length) :
    hasFinished (BenchThread.runFull qc pA pB servers (m * (1 + 2 * qc))).1 = false
    ∧ (BenchThread.runFull qc pA pB servers (m * (1 + 2 * qc))).2.1 =
        fullResults qc pA pB (servers.take m) 0
    ∧ (BenchThread.runFull qc pA pB servers (m * (1 + 2 * qc))).2.1.length = m := by
  have hc := runFrom_cancelAt qc pA pB servers.length servers m 0 h2.le
  have hfull : BenchThread.runFull qc pA pB servers (m * (1 + 2 * qc)) =
      (testingEvents servers.length (servers.take m) 0,
       fullResults qc pA pB (servers.take m) 0, 0) := by
    simp [BenchThread.runFull, hc]
  rw [hfull]
  refine ⟨testingEvents_no_finished _ _ _, rfl, ?_⟩
  rw [fullResults_length]
  simp only [List.length_take]
  omega

/-- Witness for the amended C2: three servers, one query per phase, a client
that always fails; the flag flips after the first campaign (budget
`1 * (1 + 2 * 1)`), so exactly one result is kept and nothing is delivered. -/
theorem c2_cancellation_preserves_results_witness :
    hasFinished (BenchThread.runFull 1 probeNone probeNone
      [("a", "1"), ("b", "2"), ("c", "3")] (1 * (1 + 2 * 1))).1 = false
    ∧ (BenchThread.runFull 1 probeNone probeNone
        [("a", "1"), ("b", "2"), ("c", "3")] (1 * (1 + 2 * 1))).2.1 =
        fullResults 1 probeNone probeNone
          ([("a", "1"), ("b", "2"), ("c", "3")].take 1) 0
    ∧ (BenchThread.runFull 1 probeNone probeNone
        [("a", "1"), ("b", "2"), ("c", "3")] (1 * (1 + 2 * 1))).2.1.length = 1 :=
  c2_cancellation_preserves_results 1 probeNone probeNone
    [("a", "1"), ("b", "2"), ("c", "3")] 1 (by decide) (by decide)

/-- Counterexample to C2 as stated: in this cancelled run (three servers, the
stop flag flips right after the first campaign) the first server's campaign
finished (the local results list holds exactly its result) and the last
server never started, yet the caller receives nothing — no `finished_signal`
(and no `error_signal`) is ever emitted, so no partial collection is
"returned". -/
theorem c2_cancelled_results_not_delivered_cex :
    (BenchThread.runFull 1 probeNone probeNone
      [("a", "1"), ("b", "2"), ("c", "3")] 3).2.1.length = 1
    ∧ hasFinished (BenchThread.run 1 probeNone probeNone
        [("a", "1"), ("b", "2"), ("c", "3")] 3) = false
    ∧ hasError (BenchThread.run 1 probeNone probeNone
        [("a", "1"), ("b", "2"), ("c", "3")] 3) = false := by
  have hc := runFrom_cancelAt 1 probeNone probeNone 3
    [("a", "1"), ("b", "2"), ("c", "3")] 1 0 (by norm_num)
  have hc3 : BenchThread.runFrom 1 probeNone probeNone 3
      [("a", "1"), ("b", "2"), ("c", "3")] 0 3 =
      (testingEvents 3 ([("a", "1"), ("b", "2"), ("c", "3")].take 1) 0,
       fullResults 1 probeNone probeNone
         ([("a", "1"), ("b", "2"), ("c", "3")].take 1) 0, 0) := by
    have h3 : 1 * (1 + 2 * 1) = 3 := by norm_num
    rw [← h3]
    exact hc
  have hfull : BenchThread.runFull 1 probeNone probeNone
      [("a", "1"), ("b", "2"), ("c", "3")] 3 =
      (testingEvents 3 ([("a", "1"), ("b", "2"), ("c", "3")].take 1) 0,
       fullResults 1 probeNone probeNone
         ([("a", "1"), ("b", "2"), ("c", "3")].take 1) 0, 0) := by
    simp [BenchThread.runFull, hc3]
  refine ⟨?_, ?_, ?_⟩
  · rw [hfull]
    simp [fullResults_length]
  · show hasFinished (BenchThread.runFull 1 probeNone probeNone
      [("a", "1"), ("b", "2"), ("c", "3")] 3).1 = false
    rw [hfull]
    exact testingEvents_no_finished _ _ _
  · show hasError (BenchThread.runFull 1 probeNone probeNone
      [("a", "1"), ("b", "2"), ("c", "3")] 3).1 = false
    rw [hfull]
    rfl

/-- C4 (amended): a run started on an empty target list does NOT fail: the
orchestrator loop body never executes, the final flag check passes, and the
run completes normally with `(100, "Complete!")` followed by
`finished_signal([])` — no `error_signal`.  The empty selection is instead
rejected one layer up: `MainWindow.start_benchmark` refuses to construct a
`BenchThread` for an empty selection. -/
theorem c4_empty_targets_amended (qc budget : ℕ) (pA pB : ℕ → ℕ → Option ℚ)
    (h : 0 < budget) :
    BenchThread.run qc pA pB [] budget =
      [Event.progress 100 "Complete!", Event.finished []]
    ∧ hasError (BenchThread.run qc pA pB [] budget) = false
    ∧ start_benchmark [] qc = none := by
  have h2 : BenchThread.run qc pA pB [] budget =
      [Event.progress 100 "Complete!", Event.finished []] := by
    simp [BenchThread.run, BenchThread.runFull, BenchThread.runFrom, h.ne']
  refine ⟨h2, ?_, by simp [start_benchmark]⟩
  rw [h2]
  rfl

/-- Witness for the amended C4 at `query_count = 1`, budget 1. -/
theorem c4_empty_targets_amended_witness :
    BenchThread.run 1 probeNone probeNone [] 1 =
      [Event.progress 100 "Complete!", Event.finished []]
    ∧ hasError (BenchThread.run 1 probeNone probeNone [] 1) = false
    ∧ start_benchmark [] 1 = none :=
  c4_empty_targets_amended 1 1 probeNone probeNone (by decide)

/-- Counterexample to C4 as stated: a run on an empty target list emits no
error signal at all and instead completes normally, delivering a
`finished_signal` (with an empty result list). -/
theorem c4_empty_targets_cex :
    hasError (BenchThread.run 1 probeNone probeNone [] 1) = false
    ∧ hasFinished (BenchThread.run 1 probeNone probeNone [] 1) = true := by
  have h2 : BenchThread.run 1 probeNone probeNone [] 1 =
      [Event.progress 100 "Complete!", Event.finished []] := by
    simp [BenchThread.run, BenchThread.runFull, BenchThread.runFrom]
  rw [h2]
  exact ⟨rfl, rfl⟩

lemma scaleFor_le_fuel : ∀ (fuel a b : ℕ), scaleFor a b fuel ≤ fuel := by
  intro fuel
  induction fuel with
  | zero => intro a b; simp [scaleFor]
  | succ f ih =>
      intro a b
      simp only [scaleFor]
      split_ifs with h
      · exact Nat.zero_le _
      · exact Nat.succ_le_succ (ih (2 * a) b)

lemma scaleFor_spec : ∀ (fuel a b : ℕ), b ≤ a * 2 ^ fuel →
    b ≤ a * 2 ^ scaleFor a b fuel := by
  intro fuel
  induction fuel with
  | zero => intro a b h; simpa [scaleFor] using h
  | succ f ih =>
      intro a b h
      simp only [scaleFor]
      split_ifs with hba
      · simpa using hba
      · have h' : b ≤ 2 * a * 2 ^ f := by
          calc b ≤ a * 2 ^ (f + 1) := h
            _ = 2 * a * 2 ^ f := by ring
        calc b ≤ 2 * a * 2 ^ scaleFor (2 * a) b f := ih (2 * a) b h'
          _ = a * 2 ^ (scaleFor (2 * a) b f + 1) := by ring

lemma roundHalfEvenDiv_bounds (a b : ℕ) (hb : b ≠ 0) :
    (a : ℚ) / b - 1 / 2 ≤ (roundHalfEvenDiv a b : ℚ) ∧
    (roundHalfEvenDiv a b : ℚ) ≤ (a : ℚ) / b + 1 / 2 := by
  have hb0 : (0 : ℚ) < b := by exact_mod_cast Nat.pos_of_ne_zero hb
  have hmod : b * (a / b) + a % b = a := Nat.div_add_mod a b
  have hrlt : a % b < b := Nat.mod_lt a (Nat.pos_of_ne_zero hb)
  have haq : (a : ℚ) / b = ((a / b : ℕ) : ℚ) + ((a % b : ℕ) : ℚ) / b := by
    have ha : (a : ℚ) = (b : ℚ) * ((a / b : ℕ) : ℚ) + ((a % b : ℕ) : ℚ) := by
      exact_mod_cast hmod.symm
    rw [ha]
    field_simp
    ring
  have hr0 : (0 : ℚ) ≤ ((a % b : ℕ) : ℚ) / b := by positivity
  have hr1 : ((a % b : ℕ) : ℚ) / b < 1 := by
    rw [div_lt_one hb0]
    exact_mod_cast hrlt
  simp only [roundHalfEvenDiv]
  split_ifs with h1 h2 h3
  · have hc : 2 * ((a % b : ℕ) : ℚ) < b := by exact_mod_cast h1
    have hrb : ((a % b : ℕ) : ℚ) / b ≤ 1 / 2 := by
      rw [div_le_div_iff₀ hb0 (by norm_num : (0:ℚ) < 2)]
      linarith
    constructor <;> rw [haq] <;> linarith
  · have hc : (b : ℚ) < 2 * ((a % b : ℕ) : ℚ) := by exact_mod_cast h2
    have hrb : 1 / 2 ≤ ((a % b : ℕ) : ℚ) / b := by
      rw [div_le_div_iff₀ (by norm_num : (0:ℚ) < 2) hb0]
      linarith
    constructor <;> rw [haq] <;> push_cast <;> linarith
  · have hc : 2 * (a % b) = b := by omega
    have hrb : ((a % b : ℕ) : ℚ) / b = 1 / 2 := by
      have : 2 * ((a % b : ℕ) : ℚ) = b := by exact_mod_cast hc
      rw [div_eq_div_iff hb0.ne' (by norm_num : (2:ℚ) ≠ 0)]
      linarith
    constructor <;> rw [haq] <;> linarith
  · have hc : 2 * (a % b) = b := by omega
    have hrb : ((a % b : ℕ) : ℚ) / b = 1 / 2 := by
      have : 2 * ((a % b : ℕ) : ℚ) = b := by exact_mod_cast hc
      rw [div_eq_div_iff hb0.ne' (by norm_num : (2:ℚ) ≠ 0)]
      linarith
    constructor <;> rw [haq] <;> push_cast <;> linarith

set_option maxRecDepth 8000 in
set_option maxHeartbeats 1600000 in
lemma pyProgress_approx (i n : ℕ) (hi : 0 < i) (hin : i ≤ n) (hn : n ≤ 99) :
    ∃ y : ℚ, pyProgress i n = ⌊y⌋₊ ∧ 0 ≤ y ∧
      100 * ((i : ℚ) / n) - 1 / 2 ^ 44 ≤ y ∧ y ≤ 100 * ((i : ℚ) / n) + 1 / 2 ^ 44 := by
  have hi0 : i ≠ 0 := hi.ne'
  have hn0 : n ≠ 0 := by omega
  set s1 := scaleFor i (n * 2 ^ 52) 200 with hs1def
  set m1 := roundHalfEvenDiv (i * 2 ^ s1) n with hm1def
  set s2 := scaleFor (100 * m1) (2 ^ s1 * 2 ^ 52) 200 with hs2def
  set m2 := roundHalfEvenDiv (100 * m1 * 2 ^ s2) (2 ^ s1) with hm2def
  have hpy : pyProgress i n = m2 / 2 ^ s2 := by
    rw [hm2def, hs2def, hm1def, hs1def]
    unfold pyProgress
    rw [if_neg (by push_neg; exact ⟨hi0, hn0⟩)]
  have hN : (0 : ℚ) < n := by exact_mod_cast Nat.pos_of_ne_zero hn0
  have hI : (0 : ℚ) < i := by exact_mod_cast hi
  have hA : (0 : ℚ) < 2 ^ s1 := by positivity
  have hB : (0 : ℚ) < 2 ^ s2 := by positivity
  -- phase 1: m1 / 2^s1 approximates i / n to within half an ulp
  have hfuel1 : n * 2 ^ 52 ≤ i * 2 ^ 200 := by
    calc n * 2 ^ 52 ≤ 99 * 2 ^ 52 := Nat.mul_le_mul_right _ hn
      _ ≤ 1 * 2 ^ 200 := by norm_num
      _ ≤ i * 2 ^ 200 := Nat.mul_le_mul_right _ hi
  have hscale1 : n * 2 ^ 52 ≤ i * 2 ^ s1 := by
    rw [hs1def]
    exact scaleFor_spec 200 i (n * 2 ^ 52) hfuel1
  have hrhe1 := roundHalfEvenDiv_bounds (i * 2 ^ s1) n hn0
  rw [← hm1def] at hrhe1
  have hcast1 : ((i * 2 ^ s1 : ℕ) : ℚ) = (i : ℚ) * 2 ^ s1 := by push_cast; ring
  rw [hcast1] at hrhe1
  have hA52 : (2 : ℚ) ^ 52 ≤ 2 ^ s1 := by
    have h1 : n * 2 ^ 52 ≤ n * 2 ^ s1 :=
      le_trans hscale1 (Nat.mul_le_mul_right _ hin)
    have h2 : 2 ^ 52 ≤ 2 ^ s1 := Nat.le_of_mul_le_mul_left h1 (Nat.pos_of_ne_zero hn0)
    exact_mod_cast h2
  have hxlow : (i : ℚ) / n - 1 / (2 * 2 ^ s1) ≤ (m1 : ℚ) / 2 ^ s1 := by
    have h1 : ((i : ℚ) * 2 ^ s1 / n - 1 / 2) / 2 ^ s1 ≤ (m1 : ℚ) / 2 ^ s1 :=
      (div_le_div_iff_of_pos_right hA).mpr hrhe1.1
    calc (i : ℚ) / n - 1 / (2 * 2 ^ s1)
        = ((i : ℚ) * 2 ^ s1 / n - 1 / 2) / 2 ^ s1 := by
          field_simp
          ring
      _ ≤ (m1 : ℚ) / 2 ^ s1 := h1
  have hxhigh : (m1 : ℚ) / 2 ^ s1 ≤ (i : ℚ) / n + 1 / (2 * 2 ^ s1) := by
    have h1 : (m1 : ℚ) / 2 ^ s1 ≤ ((i : ℚ) * 2 ^ s1 / n + 1 / 2) / 2 ^ s1 :=
      (div_le_div_iff_of_pos_right hA).mpr hrhe1.2
    calc (m1 : ℚ) / 2 ^ s1 ≤ ((i : ℚ) * 2 ^ s1 / n + 1 / 2) / 2 ^ s1 := h1
      _ = (i : ℚ) / n + 1 / (2 * 2 ^ s1) := by
          field_simp
          ring
  have hulp1 : 1 / (2 * 2 ^ s1) ≤ (1 : ℚ) / 2 ^ 53 := by
    apply one_div_le_one_div_of_le (by positivity)
    calc ((2 : ℚ) ^ 53) = 2 * 2 ^ 52 := by norm_num
      _ ≤ 2 * 2 ^ s1 := by linarith
  have hio : (i : ℚ) / n ≤ 1 := by
    rw [div_le_one hN]
    exact_mod_cast hin
  -- phase 2: the second scale is ample because m1 is close to a full mantissa
  have hm1ge : 2 ^ 52 ≤ m1 := by
    by_contra hcon
    push_neg at hcon
    have hcon' : m1 + 1 ≤ 2 ^ 52 := hcon
    have hq : (m1 : ℚ) + 1 ≤ 2 ^ 52 := by exact_mod_cast hcon'
    have hv : (2 : ℚ) ^ 52 ≤ (i : ℚ) * 2 ^ s1 / n := by
      rw [le_div_iff₀ hN]
      calc (2 : ℚ) ^ 52 * n = (n : ℚ) * 2 ^ 52 := by ring
        _ ≤ (i : ℚ) * 2 ^ s1 := by exact_mod_cast hscale1
    linarith [hrhe1.1]
  have hs1le : s1 ≤ 200 := by
    rw [hs1def]
    exact scaleFor_le_fuel 200 i (n * 2 ^ 52)
  have hfuel2 : 2 ^ s1 * 2 ^ 52 ≤ 100 * m1 * 2 ^ 200 := by
    calc 2 ^ s1 * 2 ^ 52
        ≤ 2 ^ 200 * 2 ^ 52 :=
          Nat.mul_le_mul_right _ (Nat.pow_le_pow_right (by norm_num) hs1le)
      _ = 2 ^ 52 * 2 ^ 200 := by ring
      _ ≤ 100 * m1 * 2 ^ 200 := by
          have h52 : 2 ^ 52 ≤ 100 * m1 := le_trans hm1ge (by omega)
          exact Nat.mul_le_mul_right _ h52
  have hscale2 : 2 ^ s1 * 2 ^ 52 ≤ 100 * m1 * 2 ^ s2 := by
    rw [hs2def]
    exact scaleFor_spec 200 (100 * m1) (2 ^ s1 * 2 ^ 52) hfuel2
  have hrhe2 := roundHalfEvenDiv_bounds (100 * m1 * 2 ^ s2) (2 ^ s1) (by positivity)
  rw [← hm2def] at hrhe2
  have hcast2 : ((100 * m1 * 2 ^ s2 : ℕ) : ℚ) = 100 * (m1 : ℚ) * 2 ^ s2 := by
    push_cast
    ring
  have hcast3 : ((2 ^ s1 : ℕ) : ℚ) = (2 : ℚ) ^ s1 := by push_cast; ring
  rw [hcast2, hcast3] at hrhe2
  have hylow : 100 * ((m1 : ℚ) / 2 ^ s1) - 1 / (2 * 2 ^ s2) ≤ (m2 : ℚ) / 2 ^ s2 := by
    have h1 : (100 * (m1 : ℚ) * 2 ^ s2 / 2 ^ s1 - 1 / 2) / 2 ^ s2 ≤ (m2 : ℚ) / 2 ^ s2 :=
      (div_le_div_iff_of_pos_right hB).mpr hrhe2.1
    calc 100 * ((m1 : ℚ) / 2 ^ s1) - 1 / (2 * 2 ^ s2)
        = (100 * (m1 : ℚ) * 2 ^ s2 / 2 ^ s1 - 1 / 2) / 2 ^ s2 := by
          field_simp
          ring
      _ ≤ (m2 : ℚ) / 2 ^ s2 := h1
  have hyhigh : (m2 : ℚ) / 2 ^ s2 ≤ 100 * ((m1 : ℚ) / 2 ^ s1) + 1 / (2 * 2 ^ s2) := by
    have h1 : (m2 : ℚ) / 2 ^ s2 ≤ (100 * (m1 : ℚ) * 2 ^ s2 / 2 ^ s1 + 1 / 2) / 2 ^ s2 :=
      (div_le_div_iff_of_pos_right hB).mpr hrhe2.2
    calc (m2 : ℚ) / 2 ^ s2 ≤ (100 * (m1 : ℚ) * 2 ^ s2 / 2 ^ s1 + 1 / 2) / 2 ^ s2 := h1
      _ = 100 * ((m1 : ℚ) / 2 ^ s1) + 1 / (2 * 2 ^ s2) := by
          field_simp
          ring
  have hulp2 : 1 / (2 * 2 ^ s2) ≤ (101 : ℚ) / 2 ^ 53 := by
    have hm1A : (m1 : ℚ) ≤ (1 + 1 / 2 ^ 53) * 2 ^ s1 := by
      have h1 : (m1 : ℚ) / 2 ^ s1 ≤ 1 + 1 / 2 ^ 53 := by linarith
      rw [div_le_iff₀ hA] at h1
      linarith
    have hXle : 100 * (m1 : ℚ) ≤ 101 * 2 ^ s1 := by
      have h2 : 100 * (m1 : ℚ) ≤ 100 * ((1 + 1 / 2 ^ 53) * 2 ^ s1) := by linarith
      have h3 : (100 : ℚ) * (1 + 1 / 2 ^ 53) ≤ 101 := by norm_num
      have h4 : (100 * (1 + 1 / 2 ^ 53)) * (2 : ℚ) ^ s1 ≤ 101 * 2 ^ s1 :=
        mul_le_mul_of_nonneg_right h3 hA.le
      calc 100 * (m1 : ℚ) ≤ 100 * ((1 + 1 / 2 ^ 53) * 2 ^ s1) := h2
        _ = (100 * (1 + 1 / 2 ^ 53)) * 2 ^ s1 := by ring
        _ ≤ 101 * 2 ^ s1 := h4
    have hsc : (2 : ℚ) ^ s1 * 2 ^ 52 ≤ 100 * (m1 : ℚ) * 2 ^ s2 := by
      exact_mod_cast hscale2
    have h52 : (2 : ℚ) ^ 52 ≤ 101 * 2 ^ s2 := by
      have h5 : 100 * (m1 : ℚ) * 2 ^ s2 ≤ (101 * 2 ^ s1) * 2 ^ s2 :=
        mul_le_mul_of_nonneg_right hXle hB.le
      have h4 : (2 : ℚ) ^ s1 * 2 ^ 52 ≤ 2 ^ s1 * (101 * 2 ^ s2) := by
        calc (2 : ℚ) ^ s1 * 2 ^ 52 ≤ 100 * (m1 : ℚ) * 2 ^ s2 := hsc
          _ ≤ (101 * 2 ^ s1) * 2 ^ s2 := h5
          _ = 2 ^ s1 * (101 * 2 ^ s2) := by ring
      exact (mul_le_mul_left hA).mp h4
    rw [div_le_div_iff₀ (by positivity) (by positivity)]
    calc (1 : ℚ) * 2 ^ 53 = 2 * 2 ^ 52 := by norm_num
      _ ≤ 2 * (101 * 2 ^ s2) := by linarith
      _ = 101 * (2 * 2 ^ s2) := by ring
  -- assemble
  have heps : (201 : ℚ) / 2 ^ 53 ≤ 1 / 2 ^ 44 := by norm_num
  refine ⟨(m2 : ℚ) / 2 ^ s2, ?_, by positivity, ?_, ?_⟩
  · rw [hpy]
    rw [show ((2 : ℚ) ^ s2) = ((2 ^ s2 : ℕ) : ℚ) by push_cast; ring,
      Nat.floor_div_nat, Nat.floor_natCast]
  · linarith [hxlow, hulp1, hylow, hulp2]
  · linarith [hxhigh, hulp1, hyhigh, hulp2]

lemma pyProgress_zero (n : ℕ) : pyProgress 0 n = 0 := by
  simp [pyProgress]

lemma pyProgress_lt100 (n i : ℕ) (hi : i < n) (hn : n ≤ 99) :
    pyProgress i n < 100 := by
  rcases Nat.eq_zero_or_pos i with rfl | hipos
  · rw [pyProgress_zero]
    norm_num
  · obtain ⟨y, hfl, hy0, hlo, hhi⟩ := pyProgress_approx i n hipos (le_of_lt hi) hn
    rw [hfl]
    have hn0 : (0 : ℚ) < n := by
      have : 0 < n := by omega
      exact_mod_cast this
    have hi1 : (i : ℚ) + 1 ≤ n := by exact_mod_cast hi
    have hFn : 100 * (((i : ℚ) + 1) / n) ≤ 100 := by
      have h2 : ((i : ℚ) + 1) / n ≤ 1 := by
        rw [div_le_one hn0]
        exact hi1
      linarith
    have hgap : 100 * (((i : ℚ) + 1) / n) = 100 * ((i : ℚ) / n) + 100 / n := by
      field_simp
      ring
    have h99 : (100 : ℚ) / 99 ≤ 100 / n := by
      apply div_le_div_of_nonneg_left (by norm_num) hn0
      exact_mod_cast hn
    have hy100 : y < 100 := by
      have heps : (1 : ℚ) / 2 ^ 44 < 100 / 99 := by norm_num
      linarith
    exact (Nat.floor_lt hy0).mpr (by exact_mod_cast hy100)

lemma pyProgress_strict_mono (n i : ℕ) (h1 : i + 1 < n) (hn : n ≤ 99) :
    pyProgress i n < pyProgress (i + 1) n := by
  have hn0 : (0 : ℚ) < n := by
    have : 0 < n := by omega
    exact_mod_cast this
  have h99 : (100 : ℚ) / 99 ≤ 100 / n := by
    apply div_le_div_of_nonneg_left (by norm_num) hn0
    exact_mod_cast hn
  obtain ⟨y2, hfl2, hy02, hlo2, hhi2⟩ :=
    pyProgress_approx (i + 1) n (by omega) (by omega) hn
  have hcast : ((i + 1 : ℕ) : ℚ) = (i : ℚ) + 1 := by push_cast; ring
  rw [hcast] at hlo2 hhi2
  have hgap : 100 * (((i : ℚ) + 1) / n) = 100 * ((i : ℚ) / n) + 100 / n := by
    field_simp
    ring
  rcases Nat.eq_zero_or_pos i with rfl | hipos
  · rw [pyProgress_zero, hfl2]
    have hy1 : (1 : ℚ) ≤ y2 := by
      have heps : (1 : ℚ) / 2 ^ 44 < 100 / 99 - 1 := by norm_num
      have h0 : 100 * ((0 : ℚ) / n) = 0 := by norm_num
      rw [show ((0 : ℕ) : ℚ) = (0 : ℚ) from rfl] at hlo2
      linarith
    have : 1 ≤ ⌊y2⌋₊ := Nat.le_floor (by exact_mod_cast hy1)
    omega
  · obtain ⟨y1, hfl1, hy01, hlo1, hhi1⟩ :=
      pyProgress_approx i n hipos (by omega) hn
    rw [hfl1, hfl2]
    have hdiff : y1 + 1 ≤ y2 := by
      have heps : (2 : ℚ) / 2 ^ 44 < 100 / 99 - 1 := by norm_num
      linarith
    have hfl1' : ⌊y1⌋₊ + 1 = ⌊y1 + 1⌋₊ := (Nat.floor_add_one hy01).symm
    have hmono : ⌊y1 + 1⌋₊ ≤ ⌊y2⌋₊ := Nat.floor_mono hdiff
    omega

/-- The double model reproduces CPython's float results, including where they
differ from exact integer arithmetic: `int((29/50)*100) = 57` (the exact
floor is 58), and `int((28/100)*100) = int((29/100)*100) = 28` — adjacent
progress values repeat at exactly 100 targets. -/
lemma pyProgress_float_values :
    pyProgress 29 50 = 57 ∧ pyProgress 28 100 = 28 ∧ pyProgress 29 100 = 28 ∧
    pyProgress 7 10 = 70 ∧ pyProgress 99 100 = 99 ∧ pyProgress 1 101 = 0 :=
  ⟨by decide, by decide, by decide, by decide, by decide, by decide⟩

lemma testing_chain (n : ℕ) (hn : 0 < n) (hn99 : n ≤ 99) :
    ∀ (servers : List (String × String)) (idx : ℕ), idx + servers.length ≤ n →
      List.Chain' (· < ·) (progressValues (testingEvents n servers idx) ++ [100]) := by
  intro servers
  induction servers with
  | nil =>
      intro idx _
      simp [testingEvents, progressValues]
  | cons s rest ih =>
      intro idx hle
      obtain ⟨nm, ip⟩ := s
      have hpv : progressValues (testingEvents n ((nm, ip) :: rest) idx) ++ [100] =
          pyProgress idx n ::
            (progressValues (testingEvents n rest (idx + 1)) ++ [100]) := by
        simp [testingEvents, progressValues]
      rw [hpv]
      refine List.chain'_cons'.mpr ⟨?_, ih (idx + 1) (by simp at hle; omega)⟩
      intro y hy
      cases rest with
      | nil =>
          simp [testingEvents, progressValues] at hy
          subst hy
          have hidx : idx < n := by simp at hle; omega
          exact pyProgress_lt100 n idx hidx hn99
      | cons s2 rest2 =>
          obtain ⟨nm2, ip2⟩ := s2
          simp [testingEvents, progressValues] at hy
          subst hy
          have hidx1 : idx + 1 < n := by simp at hle; omega
          exact pyProgress_strict_mono n idx hidx1 hn99

lemma testing_le100 (n : ℕ) (hn : 0 < n) (hn99 : n ≤ 99) :
    ∀ (servers : List (String × String)) (idx : ℕ), idx + servers.length ≤ n →
      ∀ p ∈ progressValues (testingEvents n servers idx), p ≤ 100 := by
  intro servers
  induction servers with
  | nil => intro idx _ p hp; simp [testingEvents, progressValues] at hp
  | cons s rest ih =>
      intro idx hle p hp
      obtain ⟨nm, ip⟩ := s
      simp [testingEvents, progressValues] at hp
      rcases hp with hp | hp
      · subst hp
        have hidx : idx < n := by simp at hle; omega
        exact (pyProgress_lt100 n idx hidx hn99).le
      · exact ih (idx + 1) (by simp at hle; omega) p (by
          simpa [progressValues] using hp)


lemma testing_msg_ne (nm : String) : "Testing " ++ nm ++ "..." ≠ "Complete" := by
  intro h
  have hlen := congrArg String.length h
  rw [String.length_append, String.length_append] at hlen
  have h1 : ("Testing " : String).length = 8 := rfl
  have h2 : ("..." : String).length = 3 := rfl
  have h3 : ("Complete" : String).length = 8 := rfl
  omega

lemma complete_not_mem_testing (n : ℕ) :
    ∀ (servers : List (String × String)) (idx : ℕ),
      Event.progress 100 "Complete" ∉ testingEvents n servers idx := by
  intro servers
  induction servers with
  | nil => intro idx h; cases h
  | cons s rest ih =>
      intro idx h
      obtain ⟨nm, ip⟩ := s
      rcases List.mem_cons.mp h with heq | hmem
      · have : ("Complete" : String) = "Testing " ++ nm ++ "..." := by
          injection heq
        exact testing_msg_ne nm this.symm
      · exact ih (idx + 1) hmem

/-- C7 (amended): for every uncancelled run on a nonempty target list of at
most 99 servers (always the case for the application, whose server table has
43 entries), the emitted trace is: one `int(idx / total * 100)` progress
event per server — computed bit-exactly on IEEE-754 doubles by `pyProgress` —
paired with its "Testing {name}..." status string and emitted at the boundary
where the previous server's campaign has finished, then exactly one final
`(100, "Complete!")` event followed by the `finished_signal` carrying the
full ordered result collection; the progress percentages are strictly
increasing and all lie in `[0, 100]`.  (At exactly 100 targets the program
already repeats adjacent values — `int((28/100)*100) = int((29/100)*100) =
28` — so 99 is the sharp bound for strict increase.) -/
theorem c7_progress_trace_amended (qc : ℕ) (pA pB : ℕ → ℕ → Option ℚ)
    (servers : List (String × String)) (budget : ℕ)
    (h1 : 0 < servers.length) (h2 : servers.length ≤ 99)
    (hb : servers.length * (1 + 2 * qc) < budget) :
    BenchThread.run qc pA pB servers budget =
      testingEvents servers.length servers 0 ++
        [Event.progress 100 "Complete!",
         Event.finished (fullResults qc pA pB servers 0)]
    ∧ List.Chain' (· < ·) (progressValues (BenchThread.run qc pA pB servers budget))
    ∧ (∀ p ∈ progressValues (BenchThread.run qc pA pB servers budget), p ≤ 100)
    ∧ (fullResults qc pA pB servers 0).length = servers.length := by
  have hr := runFrom_ample qc pA pB servers.length servers 0 budget hb
  have hnz : budget - servers.length * (1 + 2 * qc) ≠ 0 := by omega
  have hrun : BenchThread.run qc pA pB servers budget =
      testingEvents servers.length servers 0 ++
        [Event.progress 100 "Complete!",
         Event.finished (fullResults qc pA pB servers 0)] := by
    simp [BenchThread.run, BenchThread.runFull, hr, hnz]
  have hpv : progressValues (BenchThread.run qc pA pB servers budget) =
      progressValues (testingEvents servers.length servers 0) ++ [100] := by
    rw [hrun, progressValues_append]
    rfl
  refine ⟨hrun, ?_, ?_, fullResults_length qc pA pB servers 0⟩
  · rw [hpv]
    exact testing_chain servers.length h1 h2 servers 0 (by omega)
  · intro p hp
    rw [hpv] at hp
    rcases List.mem_append.mp hp with hp | hp
    · exact testing_le100 servers.length h1 h2 servers 0 (by omega) p hp
    · simp at hp
      omega

/-- Witness for the amended C7: a single server, zero queries per phase,
ample budget. -/
theorem c7_progress_trace_amended_witness :
    BenchThread.run 0 probeNone probeNone [("a", "1")] 2 =
      testingEvents [("a", "1")].length [("a", "1")] 0 ++
        [Event.progress 100 "Complete!",
         Event.finished (fullResults 0 probeNone probeNone [("a", "1")] 0)]
    ∧ List.Chain' (· < ·)
        (progressValues (BenchThread.run 0 probeNone probeNone [("a", "1")] 2))
    ∧ (∀ p ∈ progressValues (BenchThread.run 0 probeNone probeNone [("a", "1")] 2),
        p ≤ 100)
    ∧ (fullResults 0 probeNone probeNone [("a", "1")] 0).length =
        [("a", "1")].length :=
  c7_progress_trace_amended 0 probeNone probeNone [("a", "1")] 2
    (by decide) (by decide) (by decide)


/-- Counterexample to C7 as stated: an uncancelled, normally-completing run
on 101 targets (a legal input to the orchestrator) emits the progress values
`0, 0, ...` — `int(0/101*100) = int(1/101*100) = 0` — so the sequence is NOT
strictly increasing; moreover no `(100, "Complete")` event is ever emitted
(the source's final status string is `"Complete!"`). -/
theorem c7_progress_trace_cex :
    ¬ List.Chain' (· < ·)
        (progressValues (BenchThread.run 0 probeNone probeNone servers101 200))
    ∧ Event.progress 100 "Complete" ∉
        BenchThread.run 0 probeNone probeNone servers101 200
    ∧ hasFinished (BenchThread.run 0 probeNone probeNone servers101 200) = true := by
  have hlen : servers101.length = 101 := rfl
  have hfull := runFull_ample 0 probeNone probeNone servers101 200
    (by rw [hlen]; norm_num)
  have hrun : BenchThread.run 0 probeNone probeNone servers101 200 =
      testingEvents servers101.length servers101 0 ++
        [Event.progress 100 "Complete!",
         Event.finished (fullResults 0 probeNone probeNone servers101 0)] := by
    show (BenchThread.runFull 0 probeNone probeNone servers101 200).1 = _
    rw [hfull]
  refine ⟨?_, ?_, ?_⟩
  · intro hchain
    rw [hrun, progressValues_append] at hchain
    have hshape : progressValues (testingEvents servers101.length servers101 0) ++
        progressValues [Event.progress 100 "Complete!",
          Event.finished (fullResults 0 probeNone probeNone servers101 0)] =
        0 :: 0 :: (progressValues (testingEvents servers101.length
          (List.replicate 99 ("s", "ip")) 2) ++ [100]) := rfl
    rw [hshape] at hchain
    exact absurd (List.chain'_cons.mp hchain).1 (lt_irrefl 0)
  · rw [hrun]
    intro hmem
    rcases List.mem_append.mp hmem with hmem | hmem
    · exact complete_not_mem_testing servers101.length servers101 0 hmem
    · rcases List.mem_cons.mp hmem with heq | hmem2
      · have : ("Complete" : String) = "Complete!" := by injection heq
        exact absurd this (by decide)
      · rcases List.mem_cons.mp hmem2 with heq | hmem3
        · cases heq
        · cases hmem3
  · rw [hrun]
    simp [hasFinished]

-- ### Security checker lemmas and claims

lemma secRunFrom_probes (client : ℕ → Option (List Rd)) (total : ℕ) :
    ∀ (servers : List (String × String)) (i r : ℕ),
      probesOf (SecurityThread.runFrom client total servers i r) =
        List.range' i (min servers.length r) := by
  intro servers
  induction servers with
  | nil => intro i r; simp [SecurityThread.runFrom, probesOf]
  | cons s rest ih =>
      intro i r
      obtain ⟨nm, ip⟩ := s
      by_cases hr : r = 0
      · subst hr
        simp [SecurityThread.runFrom, probesOf]
      · have hmin : min ((nm, ip) :: rest).length r = min rest.length (r - 1) + 1 := by
          simp only [List.length_cons]
          omega
        rw [hmin, List.range'_succ]
        simp only [SecurityThread.runFrom, if_neg hr, probesOf, List.filterMap_cons]
        exact congrArg (List.cons i) (ih (i + 1) (r - 1))

/-- C5: during one check cycle, each processed server is probed exactly once,
in order and with no retries (the probe trace of a run over `servers` with
flag-read budget `budget` is exactly the index list `0, 1, ...`, one entry
per processed server); and the classification of a single probe is: a
signature-type (RRSIG) record in the answer section gives "valid", else a
signing-key-type (DNSKEY) record gives "signed", else "unsigned"; a failed
probe (timeout, transport error, malformed response) gives "error". -/
theorem c5_security_classification (client : ℕ → Option (List Rd))
    (servers : List (String × String)) (budget : ℕ) :
    probesOf (SecurityThread.run client servers budget) =
      List.range' 0 (min servers.length budget)
    ∧ (∀ answer : List Rd,
        ((∃ r ∈ answer, r = Rd.rrsig) →
          SecurityThread.classify (some answer) = "valid")
        ∧ ((∀ r ∈ answer, r ≠ Rd.rrsig) → (∃ r ∈ answer, r = Rd.dnskey) →
          SecurityThread.classify (some answer) = "signed")
        ∧ ((∀ r ∈ answer, r ≠ Rd.rrsig ∧ r ≠ Rd.dnskey) →
          SecurityThread.classify (some answer) = "unsigned"))
    ∧ SecurityThread.classify none = "error" := by
  refine ⟨?_, ?_, rfl⟩
  · show probesOf (SecurityThread.runFrom client servers.length servers 0 budget ++
      [SecEvent.finishedSig]) = _
    rw [probesOf, List.filterMap_append]
    rw [show (SecurityThread.runFrom client servers.length servers 0
        budget).filterMap _ = probesOf (SecurityThread.runFrom client
        servers.length servers 0 budget) from rfl]
    rw [secRunFrom_probes client servers.length servers 0 budget]
    simp
  · intro answer
    refine ⟨?_, ?_, ?_⟩
    · rintro ⟨r, hr, rfl⟩
      have hsig : (answer.any fun r => r == Rd.rrsig) = true :=
        List.any_eq_true.mpr ⟨Rd.rrsig, hr, by simp⟩
      simp [SecurityThread.classify, hsig]
    · intro hno hex
      rcases hex with ⟨r, hr, rfl⟩
      have h1 : (answer.any fun r => r == Rd.rrsig) = false := by
        rw [List.any_eq_false]
        intro x hx
        simp [hno x hx]
      have h2 : (answer.any fun r => r == Rd.dnskey) = true :=
        List.any_eq_true.mpr ⟨Rd.dnskey, hr, by simp⟩
      simp [SecurityThread.classify, h1, h2]
    · intro hno
      have h1 : (answer.any fun r => r == Rd.rrsig) = false := by
        rw [List.any_eq_false]
        intro x hx
        simp [(hno x hx).1]
      have h2 : (answer.any fun r => r == Rd.dnskey) = false := by
        rw [List.any_eq_false]
        intro x hx
        simp [(hno x hx).2]
      simp [SecurityThread.classify, h1, h2]

/-- Witness for C5: a client answering with exactly one DNSKEY record and no
RRSIG is classified "signed", and a one-server run probes exactly server 0,
once. -/
theorem c5_security_classification_witness :
    SecurityThread.classify (some [Rd.dnskey]) = "signed"
    ∧ probesOf (SecurityThread.run clientDnskey [("a", "1")] 1) =
        List.range' 0 (min ([("a", "1")] : List (String × String)).length 1) := by
  have h := c5_security_classification clientDnskey [("a", "1")] 1
  exact ⟨(h.2.1 [Rd.dnskey]).2.1 (by decide) (by decide), h.1⟩

-- ### Phase B domain lemmas and claims

/-- C9 (amended): every Phase B probe queries a freshly generated
pseudo-random name of exactly 8 lowercase letters followed by the fixed
".com" suffix; but distinctness of the names within a run is NOT guaranteed —
the letters are drawn independently with replacement, so two probes can draw
the same name. -/
theorem c9_random_domains_amended (letters : ℕ → ℕ → Fin 26) (i : ℕ) :
    (phaseBDomain letters i).length = 12
    ∧ (phaseBDomain letters i).data.drop 8 = ".com".data
    ∧ (∀ c ∈ (phaseBDomain letters i).data.take 8, 'a' ≤ c ∧ c ≤ 'z') := by
  have hdata : (phaseBDomain letters i).data =
      ((List.range 8).map fun j => asciiLowercase (letters i j)) ++ ".com".data := rfl
  have hm : ((List.range 8).map fun j => asciiLowercase (letters i j)).length = 8 := by
    simp
  refine ⟨?_, ?_, ?_⟩
  · show (phaseBDomain letters i).data.length = 12
    rw [hdata, List.length_append, hm]
    rfl
  · rw [hdata]
    conv_lhs => rw [show (8 : ℕ) = ((List.range 8).map
      fun j => asciiLowercase (letters i j)).length from hm.symm]
    exact List.drop_left _ _
  · have htake : (phaseBDomain letters i).data.take 8 =
        (List.range 8).map fun j => asciiLowercase (letters i j) := by
      rw [hdata]
      conv_lhs => rw [show (8 : ℕ) = ((List.range 8).map
        fun j => asciiLowercase (letters i j)).length from hm.symm]
      exact List.take_left _ _
    rw [htake]
    intro c hc
    rcases List.mem_map.mp hc with ⟨j, _, rfl⟩
    have hall : ∀ v : Fin 26, 'a' ≤ asciiLowercase v ∧ asciiLowercase v ≤ 'z' := by
      decide
    exact hall (letters i j)

/-- Counterexample to C9 as stated: the all-"a" draw is a possible outcome of
`random.choices` for two different probes of the same run, and then probes 0
and 1 query the same name ("aaaaaaaa.com") — the generated names are not
pairwise distinct. -/
theorem c9_random_domains_cex :
    phaseBDomain (fun _ _ => (0 : Fin 26)) 0 = phaseBDomain (fun _ _ => (0 : Fin 26)) 1
    ∧ (0 : ℕ) ≠ 1 := by
  exact ⟨rfl, by decide⟩
